import Mathlib

/-!
# Verification of the Mercury threadscope tracing subsystem

The repository exposes the declarative surface of the tracer in
`src/runtime/mercury_threadscope.h`: the stop-reason codes, the
`MR_Threadscope_String` registration record, and the posting / lifecycle
API.  The implementation file `mercury_threadscope.c` is not part of the
inspected sources, so the behaviour of the event buffer, string table,
trace writer and session lifecycle is modelled from the specification
(`spec.md`), while every constant, type width and signature that the
header does provide is taken from the header.

Integer widths follow the header's typedefs: context ids are word sized
(`MR_Integer`, 64 bit), spark ids and string ids are `MR_uint_least32_t`,
stop reasons are `MR_uint_least16_t`; pointers (`MR_Word*`, `MR_Future*`)
are modelled as 64-bit addresses.  Machine integers are `Nat` with
explicit bounds where overflow matters; bytes are `Nat`s.
-/

/-! ## Little-endian byte encoding -/

/-- Encode `v` as `w` little-endian bytes (low byte first). -/
def encodeLE : Nat → Nat → List Nat
  | 0, _ => []
  | w + 1, v => v % 256 :: encodeLE w (v / 256)

/-- Decode `w` little-endian bytes from the front of `l`. -/
def decodeLE : Nat → List Nat → Option (Nat × List Nat)
  | 0, l => some (0, l)
  | _ + 1, [] => none
  | w + 1, b :: l =>
    match decodeLE w l with
    | none => none
    | some (v, rest) => some (b + 256 * v, rest)

theorem encodeLE_length (w v : Nat) : (encodeLE w v).length = w := by
  induction w generalizing v with
  | zero => rfl
  | succ w ih => simp [encodeLE, ih]

theorem decodeLE_encodeLE (w : Nat) :
    ∀ (v : Nat) (rest : List Nat), v < 256 ^ w →
      decodeLE w (encodeLE w v ++ rest) = some (v, rest) := by
  induction w with
  | zero =>
    intro v rest h
    have hv : v = 0 := by simpa using Nat.lt_one_iff.mp (by simpa using h)
    simp [hv, encodeLE, decodeLE]
  | succ w ih =>
    intro v rest h
    have hdiv : v / 256 < 256 ^ w :=
      Nat.div_lt_of_lt_mul (by rw [pow_succ] at h; omega)
    simp [encodeLE, decodeLE, ih (v / 256) rest hdiv, Nat.mod_add_div]

/-- Split off exactly `n` bytes from the front of `l`, failing if `l` is
too short. -/
def takeExact (n : Nat) (l : List Nat) : Option (List Nat × List Nat) :=
  if _h : n ≤ l.length then some (l.take n, l.drop n) else none

theorem takeExact_append (l rest : List Nat) :
    takeExact l.length (l ++ rest) = some (l, rest) := by
  have hlen : l.length ≤ (l ++ rest).length := by
    simp
  simp [takeExact, hlen, List.take_left, List.drop_left]

/-! ## Stop reasons (constants from `mercury_threadscope.h`, lines 31-35) -/

def MR_TS_STOP_REASON_HEAP_OVERFLOW : Nat := 1
def MR_TS_STOP_REASON_STACK_OVERFLOW : Nat := 2
def MR_TS_STOP_REASON_YIELDING : Nat := 3
def MR_TS_STOP_REASON_BLOCKED : Nat := 4
def MR_TS_STOP_REASON_FINISHED : Nat := 5

/-- The reasons why a context has been stopped, as enumerated in the
header and in the spec's STOP_CONTEXT catalogue row. -/
inductive StopReason where
  | heapOverflow
  | stackOverflow
  | yielding
  | blocked
  | finished
deriving DecidableEq

/-- The `MR_TS_STOP_REASON_*` code of a stop reason (a
`MR_ContextStopReason`, i.e. a 16-bit value). -/
def stopReasonCode : StopReason → Nat
  | .heapOverflow => MR_TS_STOP_REASON_HEAP_OVERFLOW
  | .stackOverflow => MR_TS_STOP_REASON_STACK_OVERFLOW
  | .yielding => MR_TS_STOP_REASON_YIELDING
  | .blocked => MR_TS_STOP_REASON_BLOCKED
  | .finished => MR_TS_STOP_REASON_FINISHED

/-- Decode a stop-reason code back to the reason. -/
def decodeStopReason : Nat → Option StopReason
  | 1 => some .heapOverflow
  | 2 => some .stackOverflow
  | 3 => some .yielding
  | 4 => some .blocked
  | 5 => some .finished
  | _ => none

/-! ## Events

Modelled from the spec: the event catalogue of section 4.2 (the posting
functions are declared in the header; `mercury_threadscope.c`, which
encodes them, is not in the inspected sources).  Field widths follow the
header's typedefs: context ids are 64-bit (`MR_Integer`), spark and
string ids 32-bit, stop reasons 16-bit, and the `MR_Word*` / `MR_Future*`
handles are 64-bit opaque addresses. -/

inductive Event where
  | createContext (contextId : Nat)
  | createContextForSpark (contextId : Nat)
  | contextRunnable (contextId : Nat)
  | runContext
  | stopContext (reason : StopReason)
  | runSpark (sparkId : Nat)
  | stealSpark (sparkId : Nat)
  | sparking (conjId sparkId : Nat)
  | callingMain
  | lookingForGlobalContext
  | workStealing
  | startParConj (conjId stringId : Nat)
  | endParConj (conjId : Nat)
  | endParConjunct (conjId : Nat)
  | newFuture (futureId : Nat)
  | waitFutureSuspended (futureId : Nat)
  | waitFutureNosuspend (futureId : Nat)
  | signalFuture (futureId : Nat)
  | logMsg (msg : List Nat)
deriving DecidableEq

/-- The tag byte of an event record, one distinct tag per catalogue row. -/
def eventTag : Event → Nat
  | .createContext _ => 0
  | .createContextForSpark _ => 1
  | .contextRunnable _ => 2
  | .runContext => 3
  | .stopContext _ => 4
  | .runSpark _ => 5
  | .stealSpark _ => 6
  | .sparking _ _ => 7
  | .callingMain => 8
  | .lookingForGlobalContext => 9
  | .workStealing => 10
  | .startParConj _ _ => 11
  | .endParConj _ => 12
  | .endParConjunct _ => 13
  | .newFuture _ => 14
  | .waitFutureSuspended _ => 15
  | .waitFutureNosuspend _ => 16
  | .signalFuture _ => 17
  | .logMsg _ => 18

/-- The tag-specific payload bytes of an event (fixed layout per tag;
`logMsg` is variable-length with a 16-bit length prefix). -/
def encodeFields : Event → List Nat
  | .createContext c => encodeLE 8 c
  | .createContextForSpark c => encodeLE 8 c
  | .contextRunnable c => encodeLE 8 c
  | .runContext => []
  | .stopContext r => encodeLE 2 (stopReasonCode r)
  | .runSpark s => encodeLE 4 s
  | .stealSpark s => encodeLE 4 s
  | .sparking c s => encodeLE 8 c ++ encodeLE 4 s
  | .callingMain => []
  | .lookingForGlobalContext => []
  | .workStealing => []
  | .startParConj c sid => encodeLE 8 c ++ encodeLE 4 sid
  | .endParConj c => encodeLE 8 c
  | .endParConjunct c => encodeLE 8 c
  | .newFuture f => encodeLE 8 f
  | .waitFutureSuspended f => encodeLE 8 f
  | .waitFutureNosuspend f => encodeLE 8 f
  | .signalFuture f => encodeLE 8 f
  | .logMsg m => encodeLE 2 m.length ++ m

/-- All identifier fields of the event fit their wire width. -/
def eventValid : Event → Bool
  | .createContext c => decide (c < 256 ^ 8)
  | .createContextForSpark c => decide (c < 256 ^ 8)
  | .contextRunnable c => decide (c < 256 ^ 8)
  | .runContext => true
  | .stopContext _ => true
  | .runSpark s => decide (s < 256 ^ 4)
  | .stealSpark s => decide (s < 256 ^ 4)
  | .sparking c s => decide (c < 256 ^ 8) && decide (s < 256 ^ 4)
  | .callingMain => true
  | .lookingForGlobalContext => true
  | .workStealing => true
  | .startParConj c sid => decide (c < 256 ^ 8) && decide (sid < 256 ^ 4)
  | .endParConj c => decide (c < 256 ^ 8)
  | .endParConjunct c => decide (c < 256 ^ 8)
  | .newFuture f => decide (f < 256 ^ 8)
  | .waitFutureSuspended f => decide (f < 256 ^ 8)
  | .waitFutureNosuspend f => decide (f < 256 ^ 8)
  | .signalFuture f => decide (f < 256 ^ 8)
  | .logMsg m => decide (m.length < 256 ^ 2)

/-- Decode the payload of a record given its tag byte. -/
def decodeFields (tag : Nat) (l : List Nat) : Option (Event × List Nat) :=
  match tag with
  | 0 => (decodeLE 8 l).map fun p => (.createContext p.1, p.2)
  | 1 => (decodeLE 8 l).map fun p => (.createContextForSpark p.1, p.2)
  | 2 => (decodeLE 8 l).map fun p => (.contextRunnable p.1, p.2)
  | 3 => some (.runContext, l)
  | 4 =>
    match decodeLE 2 l with
    | none => none
    | some (code, rest) =>
      match decodeStopReason code with
      | none => none
      | some r => some (.stopContext r, rest)
  | 5 => (decodeLE 4 l).map fun p => (.runSpark p.1, p.2)
  | 6 => (decodeLE 4 l).map fun p => (.stealSpark p.1, p.2)
  | 7 =>
    match decodeLE 8 l with
    | none => none
    | some (c, l1) => (decodeLE 4 l1).map fun p => (.sparking c p.1, p.2)
  | 8 => some (.callingMain, l)
  | 9 => some (.lookingForGlobalContext, l)
  | 10 => some (.workStealing, l)
  | 11 =>
    match decodeLE 8 l with
    | none => none
    | some (c, l1) => (decodeLE 4 l1).map fun p => (.startParConj c p.1, p.2)
  | 12 => (decodeLE 8 l).map fun p => (.endParConj p.1, p.2)
  | 13 => (decodeLE 8 l).map fun p => (.endParConjunct p.1, p.2)
  | 14 => (decodeLE 8 l).map fun p => (.newFuture p.1, p.2)
  | 15 => (decodeLE 8 l).map fun p => (.waitFutureSuspended p.1, p.2)
  | 16 => (decodeLE 8 l).map fun p => (.waitFutureNosuspend p.1, p.2)
  | 17 => (decodeLE 8 l).map fun p => (.signalFuture p.1, p.2)
  | 18 =>
    match decodeLE 2 l with
    | none => none
    | some (len, l1) => (takeExact len l1).map fun p => (.logMsg p.1, p.2)
  | _ => none

/-! ## Timestamped records

Modelled from the spec (section 4.2): a posted event is encoded as
`{tag, timestamp, fields}`; the timestamp is the posting engine's local
monotonic counter (64-bit). -/

/-- An event together with its engine-local timestamp. -/
abbrev TRecord := Nat × Event

def recordValid (r : TRecord) : Bool :=
  decide (r.1 < 256 ^ 8) && eventValid r.2

/-- Wire form of one record: tag byte, 64-bit timestamp, payload. -/
def encodeRecord (r : TRecord) : List Nat :=
  eventTag r.2 :: (encodeLE 8 r.1 ++ encodeFields r.2)

def decodeRecord (l : List Nat) : Option (TRecord × List Nat) :=
  match l with
  | [] => none
  | tag :: l1 =>
    match decodeLE 8 l1 with
    | none => none
    | some (ts, l2) => (decodeFields tag l2).map fun p => ((ts, p.1), p.2)

def encodeRecords (rs : List TRecord) : List Nat :=
  (rs.map encodeRecord).flatten

/-- Decode a sequence of records, with fuel bounding the recursion. -/
def decodeRecords : Nat → List Nat → Option (List TRecord)
  | _, [] => some []
  | 0, _ :: _ => none
  | fuel + 1, b :: l =>
    match decodeRecord (b :: l) with
    | none => none
    | some (r, rest) =>
      match decodeRecords fuel rest with
      | none => none
      | some rs => some (r :: rs)

/-- Decode a whole event-block payload into its record sequence. -/
def decodeRecordsTop (l : List Nat) : Option (List TRecord) :=
  decodeRecords l.length l

theorem stopReasonCode_lt (r : StopReason) : stopReasonCode r < 256 ^ 2 := by
  cases r <;> simp [stopReasonCode, MR_TS_STOP_REASON_HEAP_OVERFLOW,
    MR_TS_STOP_REASON_STACK_OVERFLOW, MR_TS_STOP_REASON_YIELDING,
    MR_TS_STOP_REASON_BLOCKED, MR_TS_STOP_REASON_FINISHED]

theorem decodeStopReason_code (r : StopReason) :
    decodeStopReason (stopReasonCode r) = some r := by
  cases r <;> rfl

/-- Decoding one encoded record from the front of a byte stream recovers
the record and leaves the rest of the stream untouched. -/
theorem decodeRecord_encodeRecord (r : TRecord) (rest : List Nat)
    (h : recordValid r = true) :
    decodeRecord (encodeRecord r ++ rest) = some (r, rest) := by
  obtain ⟨ts, e⟩ := r
  simp only [recordValid, Bool.and_eq_true, decide_eq_true_eq] at h
  obtain ⟨hts, he⟩ := h
  cases e
  case stopContext r =>
    have h2 := decodeLE_encodeLE 2 (stopReasonCode r) rest (stopReasonCode_lt r)
    simp_all [encodeRecord, decodeRecord, eventTag, encodeFields, decodeFields,
      List.append_assoc, decodeLE_encodeLE, decodeStopReason_code]
  all_goals
    simp_all [encodeRecord, decodeRecord, eventTag, encodeFields, decodeFields,
      eventValid, List.append_assoc, decodeLE_encodeLE,
      takeExact_append, Bool.and_eq_true, decide_eq_true_eq]

theorem length_le_length_encodeRecords (rs : List TRecord) :
    rs.length ≤ (encodeRecords rs).length := by
  induction rs with
  | nil => simp [encodeRecords]
  | cons r rs ih =>
    simp only [encodeRecords, List.map_cons, List.flatten_cons, List.length_append,
      List.length_cons, encodeRecord, List.length_cons] at *
    omega

theorem decodeRecords_encodeRecords :
    ∀ (rs : List TRecord) (fuel : Nat), rs.length ≤ fuel →
      rs.all recordValid = true →
      decodeRecords fuel (encodeRecords rs) = some rs := by
  intro rs
  induction rs with
  | nil =>
    intro fuel _ _
    cases fuel <;> simp [decodeRecords, encodeRecords]
  | cons r rs ih =>
    intro fuel hf hv
    cases fuel with
    | zero => simp at hf
    | succ f =>
      simp only [List.all_cons, Bool.and_eq_true] at hv
      have henc : encodeRecords (r :: rs) = encodeRecord r ++ encodeRecords rs := by
        simp [encodeRecords]
      have hcons : encodeRecord r ++ encodeRecords rs
          = eventTag r.2 :: (encodeLE 8 r.1 ++ encodeFields r.2 ++ encodeRecords rs) := by
        simp [encodeRecord]
      have hd : decodeRecord
          (eventTag r.2 :: (encodeLE 8 r.1 ++ (encodeFields r.2 ++ encodeRecords rs)))
          = some (r, encodeRecords rs) := by
        have hrt := decodeRecord_encodeRecord r (encodeRecords rs) hv.1
        simpa [encodeRecord, List.append_assoc] using hrt
      have hlen : rs.length ≤ f := by
        simp only [List.length_cons] at hf
        omega
      rw [henc, hcons]
      simp [decodeRecords, hd, ih f hlen hv.2]

/-- Claim C1: decoding the Event-block payload written for one engine
(the concatenation of that engine's encoded records) yields exactly the
posted sequence of tag/field records, in posting order: encode followed
by decode is the identity on the event sequence. -/
theorem event_block_roundtrip (rs : List TRecord)
    (h : rs.all recordValid = true) :
    decodeRecordsTop (encodeRecords rs) = some rs := by
  unfold decodeRecordsTop
  exact decodeRecords_encodeRecords rs _ (length_le_length_encodeRecords rs) h

/-- Claim C1 witness: the round trip evaluated on a concrete two-event
sequence. -/
theorem event_block_roundtrip_witness :
    ([((0 : Nat), Event.startParConj 42 0), (1, Event.endParConjunct 42)].all
        recordValid = true)
    ∧ decodeRecordsTop (encodeRecords
        [((0 : Nat), Event.startParConj 42 0), (1, Event.endParConjunct 42)])
      = some [((0 : Nat), Event.startParConj 42 0), (1, Event.endParConjunct 42)] :=
  ⟨by decide, event_block_roundtrip _ (by decide)⟩

/-- Claim C9: the STOP_CONTEXT reason ranges over exactly the five
values of the header's `MR_TS_STOP_REASON_*` catalogue; the five codes
are pairwise distinct, and every recorded stop reason decodes
unambiguously back to its reason (shown both on the bare code and on a
full STOP_CONTEXT record payload). -/
theorem stop_context_reasons :
    List.Pairwise (· ≠ ·)
      [MR_TS_STOP_REASON_HEAP_OVERFLOW, MR_TS_STOP_REASON_STACK_OVERFLOW,
       MR_TS_STOP_REASON_YIELDING, MR_TS_STOP_REASON_BLOCKED,
       MR_TS_STOP_REASON_FINISHED]
    ∧ ∀ r : StopReason,
        stopReasonCode r ∈
          [MR_TS_STOP_REASON_HEAP_OVERFLOW, MR_TS_STOP_REASON_STACK_OVERFLOW,
           MR_TS_STOP_REASON_YIELDING, MR_TS_STOP_REASON_BLOCKED,
           MR_TS_STOP_REASON_FINISHED]
        ∧ decodeStopReason (stopReasonCode r) = some r
        ∧ ∀ rest : List Nat,
            decodeFields 4 (encodeFields (Event.stopContext r) ++ rest)
              = some (Event.stopContext r, rest) := by
  refine ⟨by decide, ?_⟩
  intro r
  refine ⟨by cases r <;> decide, decodeStopReason_code r, ?_⟩
  intro rest
  have h2 := decodeLE_encodeLE 2 (stopReasonCode r) rest (stopReasonCode_lt r)
  simp [encodeFields, decodeFields, h2, decodeStopReason_code]

/-! ## Blocks and the shared output stream

Modelled from the spec (sections 3, 4.3 and 6): an Event block is
`{engine_id: u32, length: u32, payload bytes}`; the TraceWriter holds a
global lock for the duration of one block write, so the output stream is
a concatenation of complete blocks, in some interleaving of the engines'
flush orders. -/

structure Block where
  engine : Nat
  payload : List Nat
deriving DecidableEq

def blockValid (b : Block) : Bool :=
  decide (b.engine < 256 ^ 4) && decide (b.payload.length < 256 ^ 4)

def encodeBlock (b : Block) : List Nat :=
  encodeLE 4 b.engine ++ (encodeLE 4 b.payload.length ++ b.payload)

def decodeBlock (l : List Nat) : Option (Block × List Nat) :=
  match decodeLE 4 l with
  | none => none
  | some (eid, l1) =>
    match decodeLE 4 l1 with
    | none => none
    | some (len, l2) =>
      match takeExact len l2 with
      | none => none
      | some (pay, rest) => some (⟨eid, pay⟩, rest)

def encodeBlocks (bs : List Block) : List Nat :=
  (bs.map encodeBlock).flatten

def decodeBlocks : Nat → List Nat → Option (List Block)
  | _, [] => some []
  | 0, _ :: _ => none
  | fuel + 1, a :: l =>
    match decodeBlock (a :: l) with
    | none => none
    | some (blk, rest) =>
      match decodeBlocks fuel rest with
      | none => none
      | some bs => some (blk :: bs)

def decodeBlocksTop (l : List Nat) : Option (List Block) :=
  decodeBlocks l.length l

theorem decodeBlock_encodeBlock (b : Block) (rest : List Nat)
    (h : blockValid b = true) :
    decodeBlock (encodeBlock b ++ rest) = some (b, rest) := by
  simp only [blockValid, Bool.and_eq_true, decide_eq_true_eq] at h
  obtain ⟨he, hl⟩ := h
  have h1 := decodeLE_encodeLE 4 b.engine
    (encodeLE 4 b.payload.length ++ (b.payload ++ rest)) he
  have h2 := decodeLE_encodeLE 4 b.payload.length (b.payload ++ rest) hl
  simp [encodeBlock, decodeBlock, List.append_assoc, h1, h2, takeExact_append]

theorem length_le_length_encodeBlocks (bs : List Block) :
    bs.length ≤ (encodeBlocks bs).length := by
  induction bs with
  | nil => simp [encodeBlocks]
  | cons b bs ih =>
    simp only [encodeBlocks, List.map_cons, List.flatten_cons, List.length_append,
      List.length_cons, encodeBlock, encodeLE_length] at *
    omega

theorem decodeBlocks_encodeBlocks :
    ∀ (bs : List Block) (fuel : Nat), bs.length ≤ fuel →
      bs.all blockValid = true →
      decodeBlocks fuel (encodeBlocks bs) = some bs := by
  intro bs
  induction bs with
  | nil =>
    intro fuel _ _
    cases fuel <;> simp [decodeBlocks, encodeBlocks]
  | cons b bs ih =>
    intro fuel hf hv
    cases fuel with
    | zero => simp at hf
    | succ f =>
      simp only [List.all_cons, Bool.and_eq_true] at hv
      have henc : encodeBlocks (b :: bs) = encodeBlock b ++ encodeBlocks bs := by
        simp [encodeBlocks]
      have hne : encodeBlock b ++ encodeBlocks bs ≠ [] := by
        intro hnil
        have hlenn := congrArg List.length hnil
        simp [encodeBlock, encodeLE_length] at hlenn
      obtain ⟨a, l, hal⟩ : ∃ a l, encodeBlock b ++ encodeBlocks bs = a :: l := by
        cases hEB : encodeBlock b ++ encodeBlocks bs with
        | nil => exact absurd hEB hne
        | cons a l => exact ⟨a, l, rfl⟩
      have hlen : bs.length ≤ f := by
        simp only [List.length_cons] at hf
        omega
      rw [henc, hal]
      have hdec : decodeBlock (a :: l) = some (b, encodeBlocks bs) := by
        rw [← hal]
        exact decodeBlock_encodeBlock b _ hv.1
      simp [decodeBlocks, hdec, ih f hlen hv.2]

/-- Modelled from the spec: with K engines concurrently posting and
flushing, the TraceWriter's lock serializes flushes, so the output
stream is some interleaving of the engines' per-engine block sequences,
each block written whole.  `MergeMany seqs merged` says `merged` is such
an interleaving of the block sequences `seqs`. -/
inductive MergeMany : List (List Block) → List Block → Prop where
  | nil (seqs : List (List Block)) (h : ∀ s ∈ seqs, s = []) :
      MergeMany seqs []
  | step (seqs : List (List Block)) (i : Nat) (b : Block) (rest : List Block)
      (merged : List Block) (hget : seqs.get? i = some (b :: rest))
      (hm : MergeMany (seqs.set i rest) merged) :
      MergeMany seqs (b :: merged)

theorem sum_lengths_set (seqs : List (List Block)) (i : Nat) (b : Block)
    (rest : List Block) (h : seqs.get? i = some (b :: rest)) :
    ((seqs.set i rest).map List.length).sum + 1 = (seqs.map List.length).sum := by
  induction seqs generalizing i with
  | nil => simp at h
  | cons s ss ih =>
    cases i with
    | zero =>
      simp only [List.get?] at h
      injection h with h
      subst h
      simp [List.set]
      omega
    | succ j =>
      simp only [List.get?] at h
      have := ih j h
      simp only [List.set, List.map_cons, List.sum_cons]
      omega

theorem mergeMany_length (seqs : List (List Block)) (merged : List Block)
    (hm : MergeMany seqs merged) :
    merged.length = (seqs.map List.length).sum := by
  induction hm with
  | nil seqs h =>
    simp only [List.length_nil]
    symm
    apply List.sum_eq_zero
    intro x hx
    simp only [List.mem_map] at hx
    obtain ⟨s, hs, rfl⟩ := hx
    simp [h s hs]
  | step seqs i b rest merged hget hm ih =>
    have hsum := sum_lengths_set seqs i b rest hget
    simp only [List.length_cons, ih]
    omega

/-- Claim C4: with K engines concurrently posting and flushing, the
output stream is an interleaving of whole blocks (the writer's lock
makes each block write atomic); the resulting byte stream always parses
as a well-formed sequence of complete blocks — exactly the flushed
blocks, with none split or byte-interleaved — and it contains every
block every engine flushed. -/
theorem block_stream_wellformed (seqs : List (List Block))
    (merged : List Block) (hm : MergeMany seqs merged)
    (hv : merged.all blockValid = true) :
    decodeBlocksTop (encodeBlocks merged) = some merged
    ∧ merged.length = (seqs.map List.length).sum := by
  constructor
  · unfold decodeBlocksTop
    exact decodeBlocks_encodeBlocks merged _ (length_le_length_encodeBlocks merged) hv
  · exact mergeMany_length seqs merged hm

/-- Claim C4 witness: two engines' flushes interleaved concretely. -/
theorem block_stream_wellformed_witness :
    MergeMany [[⟨0, [7]⟩], [⟨1, []⟩]] [⟨1, []⟩, ⟨0, [7]⟩]
    ∧ ([(⟨1, []⟩ : Block), ⟨0, [7]⟩].all blockValid = true)
    ∧ (decodeBlocksTop (encodeBlocks [⟨1, []⟩, ⟨0, [7]⟩])
         = some [⟨1, []⟩, ⟨0, [7]⟩]
       ∧ ([(⟨1, []⟩ : Block), ⟨0, [7]⟩]).length
         = (([[(⟨0, [7]⟩ : Block)], [⟨1, []⟩]]).map List.length).sum) := by
  have hm : MergeMany [[⟨0, [7]⟩], [⟨1, []⟩]] [⟨1, []⟩, ⟨0, [7]⟩] :=
    MergeMany.step _ 1 ⟨1, []⟩ [] _ rfl
      (MergeMany.step _ 0 ⟨0, [7]⟩ [] [] rfl
        (MergeMany.nil _ (by decide)))
  exact ⟨hm, by decide, block_stream_wellformed _ _ hm (by decide)⟩

/-! ## TraceWriter

Modelled from the spec (section 4.3): `flush` takes the single global
lock and writes one whole Event block to the stream.  `ioOk` says
whether the underlying I/O succeeds.  On I/O failure the writer enters
the disabled state; once disabled, every flush returns with the state
unchanged (silently dropped).  The function is total: no failure is ever
propagated to the caller. -/

structure TraceWriter where
  output : List Block
  disabled : Bool
deriving DecidableEq

def flushWriter (w : TraceWriter) (blk : Block) (ioOk : Bool) : TraceWriter :=
  if w.disabled then w
  else if ioOk then { output := w.output ++ [blk], disabled := false }
  else { output := w.output, disabled := true }

/-- Claim C6: an I/O failure during a flush moves the TraceWriter into
the disabled state without writing; in the disabled state every
subsequent flush is a silent no-op (state returned unchanged, no error —
`flushWriter` is total, so no tracer failure reaches the host runtime). -/
theorem writer_failure_disables (w w2 : TraceWriter) (blk b2 : Block)
    (ok2 : Bool) (h : w.disabled = false) (h2 : w2.disabled = true) :
    (flushWriter w blk false).disabled = true
    ∧ (flushWriter w blk false).output = w.output
    ∧ flushWriter w2 b2 ok2 = w2 := by
  refine ⟨?_, ?_, ?_⟩ <;> simp [flushWriter, h, h2]

/-- Claim C6 witness: a concrete failing flush followed by a dropped
flush. -/
theorem writer_failure_disables_witness :
    ((⟨[], false⟩ : TraceWriter).disabled = false)
    ∧ ((⟨[⟨0, [1]⟩], true⟩ : TraceWriter).disabled = true)
    ∧ ((flushWriter ⟨[], false⟩ ⟨0, []⟩ false).disabled = true
       ∧ (flushWriter ⟨[], false⟩ ⟨0, []⟩ false).output = []
       ∧ flushWriter ⟨[⟨0, [1]⟩], true⟩ ⟨2, [3]⟩ true = ⟨[⟨0, [1]⟩], true⟩) :=
  ⟨rfl, rfl, writer_failure_disables ⟨[], false⟩ ⟨[⟨0, [1]⟩], true⟩ ⟨0, []⟩
    ⟨2, [3]⟩ true rfl rfl⟩

/-! ## Per-engine event buffer

Modelled from the spec (sections 3 and 4.2): each engine owns one
buffer `{engine_id, backing storage, write cursor, capacity}` and a
local monotonic clock.  `post` encodes `{tag, timestamp, fields}` and
appends it; if the append would exceed capacity the buffer is first
handed to the TraceWriter as one block and the cursor reset, and if the
record alone exceeds capacity the buffer grows (spec section 3:
"flush-or-grow ... before the write proceeds, never after").  The
byte list models storage up to the cursor, so `buf.length` is the write
cursor.  This pipeline models normal operation: its flushes succeed
(`ioOk = true`); writer failure is analyzed on `flushWriter` itself. -/

structure EngineState where
  engineId : Nat
  buf : List Nat
  cap : Nat
  clock : Nat
  writer : TraceWriter
deriving DecidableEq

def flushBuffer (s : EngineState) : EngineState :=
  { s with buf := [],
           writer := flushWriter s.writer ⟨s.engineId, s.buf⟩ true }

def post (s : EngineState) (e : Event) : EngineState :=
  let bytes := encodeRecord (s.clock, e)
  let s1 := if s.cap < s.buf.length + bytes.length then flushBuffer s else s
  let s2 := if s1.cap < bytes.length then { s1 with cap := bytes.length } else s1
  { s2 with buf := s2.buf ++ bytes, clock := s2.clock + 1 }

def postMany (s : EngineState) (es : List Event) : EngineState :=
  es.foldl post s

/-- `MR_threadscope_finalize_engine`: flush and release the engine's
buffer (modelled from the spec, section 4.4). -/
def MR_threadscope_finalize_engine (s : EngineState) : EngineState :=
  flushBuffer s

def initEngineState (eid cap : Nat) : EngineState :=
  ⟨eid, [], cap, 0, ⟨[], false⟩⟩

/-- Timestamp a sequence of events with consecutive clock values. -/
def stampFrom : Nat → List Event → List TRecord
  | _, [] => []
  | c, e :: es => (c, e) :: stampFrom (c + 1) es

/-- Concatenation of the payloads of all blocks written so far. -/
def enginePayloadBytes (w : TraceWriter) : List Nat :=
  (w.output.map Block.payload).flatten

/-- All bytes recorded so far: written blocks then the live buffer. -/
def allBytes (s : EngineState) : List Nat :=
  enginePayloadBytes s.writer ++ s.buf

theorem post_cursor_le (s : EngineState) (e : Event) :
    (post s e).buf.length ≤ (post s e).cap := by
  simp only [post, flushBuffer]
  split_ifs <;> simp_all
  omega

theorem postMany_cursor_le :
    ∀ (es : List Event) (init : EngineState), init.buf.length ≤ init.cap →
      (postMany init es).buf.length ≤ (postMany init es).cap := by
  intro es
  induction es with
  | nil => intro init h; simpa [postMany] using h
  | cons e es ih =>
    intro init h
    simp only [postMany, List.foldl_cons]
    exact ih (post init e) (post_cursor_le init e)

theorem post_overflow (s : EngineState) (e : Event)
    (hover : s.cap < s.buf.length + (encodeRecord (s.clock, e)).length) :
    (post s e).writer = flushWriter s.writer ⟨s.engineId, s.buf⟩ true
    ∧ (post s e).buf = encodeRecord (s.clock, e) := by
  simp only [post, flushBuffer]
  rw [if_pos hover]
  split_ifs <;> simp

/-- Claim C5: in every buffer state reached by a sequence of posts from
a state satisfying the cursor invariant, the write cursor stays at most
the capacity; and whenever an append would exceed capacity, the
pre-append buffer contents are flushed to the TraceWriter and the
cursor reset before the append: afterwards the buffer holds exactly the
new record and the writer has received exactly the old contents. -/
theorem buffer_cursor_invariant (init s : EngineState) (es : List Event)
    (e : Event) (hinit : init.buf.length ≤ init.cap)
    (hover : s.cap < s.buf.length + (encodeRecord (s.clock, e)).length) :
    (postMany init es).buf.length ≤ (postMany init es).cap
    ∧ (post s e).writer = flushWriter s.writer ⟨s.engineId, s.buf⟩ true
    ∧ (post s e).buf = encodeRecord (s.clock, e) := by
  obtain ⟨h1, h2⟩ := post_overflow s e hover
  exact ⟨postMany_cursor_le es init hinit, h1, h2⟩

/-- Claim C5 witness: a two-event run over an 8-byte buffer, where the
9-byte record overflows and forces a flush-before-append. -/
theorem buffer_cursor_invariant_witness :
    ((initEngineState 0 8).buf.length ≤ (initEngineState 0 8).cap)
    ∧ ((initEngineState 0 8).cap <
        (initEngineState 0 8).buf.length
          + (encodeRecord ((initEngineState 0 8).clock, Event.callingMain)).length)
    ∧ ((postMany (initEngineState 0 8) [Event.runContext, Event.callingMain]).buf.length
         ≤ (postMany (initEngineState 0 8) [Event.runContext, Event.callingMain]).cap
       ∧ (post (initEngineState 0 8) Event.callingMain).writer
           = flushWriter (initEngineState 0 8).writer
               ⟨(initEngineState 0 8).engineId, (initEngineState 0 8).buf⟩ true
       ∧ (post (initEngineState 0 8) Event.callingMain).buf
           = encodeRecord ((initEngineState 0 8).clock, Event.callingMain)) := by
  refine ⟨by decide, by decide, ?_⟩
  exact buffer_cursor_invariant (initEngineState 0 8) (initEngineState 0 8)
    [Event.runContext, Event.callingMain] Event.callingMain (by decide) (by decide)

theorem post_allBytes (s : EngineState) (e : Event)
    (h : s.writer.disabled = false) :
    allBytes (post s e) = allBytes s ++ encodeRecord (s.clock, e)
    ∧ (post s e).writer.disabled = false
    ∧ (post s e).clock = s.clock + 1 := by
  simp only [post, flushBuffer, allBytes, enginePayloadBytes, flushWriter, h]
  split_ifs <;>
    simp_all [List.map_append, List.flatten_append, List.append_assoc]

theorem postMany_allBytes :
    ∀ (es : List Event) (s : EngineState), s.writer.disabled = false →
      allBytes (postMany s es) = allBytes s ++ encodeRecords (stampFrom s.clock es)
      ∧ (postMany s es).writer.disabled = false := by
  intro es
  induction es with
  | nil => intro s h; simp [postMany, encodeRecords, stampFrom, h]
  | cons e es ih =>
    intro s h
    obtain ⟨h1, h2, h3⟩ := post_allBytes s e h
    obtain ⟨h4, h5⟩ := ih (post s e) h2
    have hpm : postMany s (e :: es) = postMany (post s e) es := by
      simp [postMany]
    refine ⟨?_, by rw [hpm]; exact h5⟩
    rw [hpm, h4, h1, h3]
    simp [encodeRecords, stampFrom, List.append_assoc]

theorem flushBuffer_allBytes (s : EngineState)
    (h : s.writer.disabled = false) :
    enginePayloadBytes (flushBuffer s).writer = allBytes s
    ∧ (flushBuffer s).buf = [] := by
  simp [flushBuffer, flushWriter, h, allBytes, enginePayloadBytes,
    List.map_append, List.flatten_append]

theorem stampFrom_length (c : Nat) (es : List Event) :
    (stampFrom c es).length = es.length := by
  induction es generalizing c with
  | nil => rfl
  | cons e es ih => simp [stampFrom, ih]

theorem stampFrom_valid :
    ∀ (es : List Event) (c : Nat), es.all eventValid = true →
      c + es.length ≤ 256 ^ 8 →
      (stampFrom c es).all recordValid = true := by
  intro es
  induction es with
  | nil => intro c _ _; rfl
  | cons e es ih =>
    intro c hv hc
    simp only [List.all_cons, Bool.and_eq_true] at hv
    simp only [List.length_cons] at hc
    simp only [stampFrom, List.all_cons, Bool.and_eq_true]
    refine ⟨?_, ih (c + 1) hv.2 (by omega)⟩
    simp [recordValid, hv.1]
    omega

/-- Claim C3: posting N events through a single engine's buffer, with
any number of buffer-full flushes along the way (the writer never in
failure mode), then finalizing the engine, yields a written byte stream
that decodes to exactly the N posted events in order — none dropped, none
duplicated. -/
theorem no_event_loss (eid cap : Nat) (es : List Event)
    (hv : es.all eventValid = true) (hn : es.length ≤ 256 ^ 8) :
    decodeRecordsTop (enginePayloadBytes
        (MR_threadscope_finalize_engine (postMany (initEngineState eid cap) es)).writer)
      = some (stampFrom 0 es)
    ∧ (stampFrom 0 es).length = es.length := by
  have h0 : (initEngineState eid cap).writer.disabled = false := rfl
  obtain ⟨hB, hD⟩ := postMany_allBytes es (initEngineState eid cap) h0
  obtain ⟨hF, _⟩ := flushBuffer_allBytes _ hD
  refine ⟨?_, stampFrom_length 0 es⟩
  unfold MR_threadscope_finalize_engine
  rw [hF, hB]
  have hnilA : allBytes (initEngineState eid cap) = [] := rfl
  have hclk : (initEngineState eid cap).clock = 0 := rfl
  rw [hnilA, hclk, List.nil_append]
  unfold decodeRecordsTop
  exact decodeRecords_encodeRecords _ _ (length_le_length_encodeRecords _)
    (stampFrom_valid es 0 hv (by omega))

/-- Claim C3 witness: two events through a 4-byte buffer (each 9-byte
record forces a flush), then finalize; the trace decodes to both
events. -/
theorem no_event_loss_witness :
    ([Event.runContext, Event.callingMain].all eventValid = true)
    ∧ ([Event.runContext, Event.callingMain].length ≤ 256 ^ 8)
    ∧ (decodeRecordsTop (enginePayloadBytes
          (MR_threadscope_finalize_engine
            (postMany (initEngineState 0 4)
              [Event.runContext, Event.callingMain])).writer)
         = some (stampFrom 0 [Event.runContext, Event.callingMain])
       ∧ (stampFrom 0 [Event.runContext, Event.callingMain]).length
         = [Event.runContext, Event.callingMain].length) :=
  ⟨by decide, by decide,
    no_event_loss 0 4 [Event.runContext, Event.callingMain] (by decide) (by decide)⟩

/-! ## StringTable

The registration record `MR_Threadscope_String` is from the header
(lines 47-50).  The registration behaviour is modelled from the spec
(section 4.1): `register(text) -> id` hands out the next id and appends
the entry; there is deliberately no deduplication by content.
`MR_threadscope_register_strings_array` registers the first `size`
entries of the caller's array in order and writes each assigned id back
into the array (header lines 196-197 give the signature). -/

structure MR_Threadscope_String where
  MR_tsstring_string : String
  MR_tsstring_id : Nat
deriving DecidableEq

structure StringTable where
  nextId : Nat
  entries : List (String × Nat)
deriving DecidableEq

def initTable : StringTable := ⟨0, []⟩

def registerString (t : StringTable) (txt : String) : Nat × StringTable :=
  (t.nextId, ⟨t.nextId + 1, t.entries ++ [(txt, t.nextId)]⟩)

def MR_threadscope_register_strings_array :
    StringTable → List MR_Threadscope_String → Nat →
      StringTable × List MR_Threadscope_String
  | t, arr, 0 => (t, arr)
  | t, [], _ + 1 => (t, [])
  | t, s :: rest, n + 1 =>
    let p := registerString t s.MR_tsstring_string
    let q := MR_threadscope_register_strings_array p.2 rest n
    (q.1, ⟨s.MR_tsstring_string, p.1⟩ :: q.2)

/-- A registration operation: a single `register` call or a batch call. -/
inductive RegOp where
  | single (txt : String)
  | batch (arr : List MR_Threadscope_String) (n : Nat)

def applyOp (t : StringTable) : RegOp → StringTable
  | .single txt => (registerString t txt).2
  | .batch arr n => (MR_threadscope_register_strings_array t arr n).1

def applyOps (t : StringTable) (ops : List RegOp) : StringTable :=
  ops.foldl applyOp t

/-- The ids assigned so far, in assignment order. -/
def idsOf (t : StringTable) : List Nat := t.entries.map Prod.snd

/-- Table invariant: assigned ids strictly increase along the entry
list and all sit below the allocation counter. -/
def tableInv (t : StringTable) : Prop :=
  (idsOf t).Pairwise (· < ·) ∧ ∀ id ∈ idsOf t, id < t.nextId

theorem registerString_inv (t : StringTable) (txt : String)
    (h : tableInv t) : tableInv (registerString t txt).2 := by
  obtain ⟨hp, hb⟩ := h
  constructor
  · have : idsOf (registerString t txt).2 = idsOf t ++ [t.nextId] := by
      simp [registerString, idsOf]
    rw [this]
    refine List.pairwise_append.mpr ⟨hp, List.pairwise_singleton _ _, ?_⟩
    intro a ha b hbm
    simp only [List.mem_singleton] at hbm
    subst hbm
    exact hb a ha
  · intro id hid
    simp only [registerString, idsOf, List.map_append] at hid ⊢
    rcases List.mem_append.mp hid with hmem | hmem
    · exact Nat.lt_succ_of_lt (hb id hmem)
    · simp only [List.map_cons, List.map_nil, List.mem_singleton] at hmem
      omega

theorem batch_inv :
    ∀ (arr : List MR_Threadscope_String) (t : StringTable) (n : Nat),
      tableInv t →
      tableInv (MR_threadscope_register_strings_array t arr n).1 := by
  intro arr
  induction arr with
  | nil =>
    intro t n h
    cases n <;> simpa [MR_threadscope_register_strings_array] using h
  | cons s rest ih =>
    intro t n h
    cases n with
    | zero => simpa [MR_threadscope_register_strings_array] using h
    | succ m =>
      simp only [MR_threadscope_register_strings_array]
      exact ih _ m (registerString_inv t _ h)

theorem batch_entries_nextId :
    ∀ (arr : List MR_Threadscope_String) (t : StringTable) (n : Nat),
      (∃ tail, (MR_threadscope_register_strings_array t arr n).1.entries
         = t.entries ++ tail)
      ∧ t.nextId ≤ (MR_threadscope_register_strings_array t arr n).1.nextId := by
  intro arr
  induction arr with
  | nil =>
    intro t n
    cases n <;> simp [MR_threadscope_register_strings_array]
  | cons s rest ih =>
    intro t n
    cases n with
    | zero => simp [MR_threadscope_register_strings_array]
    | succ m =>
      simp only [MR_threadscope_register_strings_array]
      obtain ⟨⟨tail, htail⟩, hle⟩ := ih (registerString t s.MR_tsstring_string).2 m
      constructor
      · refine ⟨(s.MR_tsstring_string, t.nextId) :: tail, ?_⟩
        rw [htail]
        simp [registerString]
      · simp only [registerString] at hle ⊢
        omega

theorem applyOp_inv (t : StringTable) (op : RegOp) (h : tableInv t) :
    tableInv (applyOp t op)
    ∧ t.nextId ≤ (applyOp t op).nextId
    ∧ ∃ tail, (applyOp t op).entries = t.entries ++ tail := by
  cases op with
  | single txt =>
    refine ⟨registerString_inv t txt h, ?_, ⟨[(txt, t.nextId)], rfl⟩⟩
    simp [applyOp, registerString]
  | batch arr n =>
    obtain ⟨htail, hle⟩ := batch_entries_nextId arr t n
    exact ⟨batch_inv arr t n h, hle, htail⟩

theorem applyOps_inv :
    ∀ (ops : List RegOp) (t : StringTable), tableInv t →
      tableInv (applyOps t ops)
      ∧ t.nextId ≤ (applyOps t ops).nextId
      ∧ ∃ tail, (applyOps t ops).entries = t.entries ++ tail := by
  intro ops
  induction ops with
  | nil => intro t h; exact ⟨h, Nat.le_refl _, ⟨[], by simp [applyOps]⟩⟩
  | cons op ops ih =>
    intro t h
    obtain ⟨h1, h2, tail1, h3⟩ := applyOp_inv t op h
    obtain ⟨h4, h5, tail2, h6⟩ := ih (applyOp t op) h1
    have hops : applyOps t (op :: ops) = applyOps (applyOp t op) ops := by
      simp [applyOps]
    refine ⟨by rw [hops]; exact h4, by rw [hops]; omega, ?_⟩
    refine ⟨tail1 ++ tail2, ?_⟩
    rw [hops, h6, h3, List.append_assoc]

theorem initTable_inv : tableInv initTable := by
  constructor <;> simp [initTable, idsOf]

theorem applyOp_nextId_le (t : StringTable) (op : RegOp) :
    t.nextId ≤ (applyOp t op).nextId := by
  cases op with
  | single txt => simp [applyOp, registerString]
  | batch arr n => exact (batch_entries_nextId arr t n).2

theorem applyOps_nextId_le :
    ∀ (ops : List RegOp) (t : StringTable),
      t.nextId ≤ (applyOps t ops).nextId := by
  intro ops
  induction ops with
  | nil => intro t; simp [applyOps]
  | cons op ops ih =>
    intro t
    have h1 := applyOp_nextId_le t op
    have h2 := ih (applyOp t op)
    have h3 : applyOps t (op :: ops) = applyOps (applyOp t op) ops := by
      simp [applyOps]
    rw [h3]
    omega

/-- Claim C2: along any session (any sequence of single and batch
registrations from the initial table), assigned string ids strictly
increase in assignment order — hence are pairwise distinct — and any
further registrations only append: an entry, once assigned, is never
changed for the lifetime of the trace. -/
theorem string_ids_unique (ops more : List RegOp) :
    (idsOf (applyOps initTable ops)).Pairwise (· < ·)
    ∧ (idsOf (applyOps initTable ops)).Pairwise (· ≠ ·)
    ∧ ∃ tail, (applyOps (applyOps initTable ops) more).entries
        = (applyOps initTable ops).entries ++ tail := by
  obtain ⟨hinv, _, _⟩ := applyOps_inv ops initTable initTable_inv
  obtain ⟨_, _, htail⟩ := applyOps_inv more (applyOps initTable ops) hinv
  exact ⟨hinv.1, hinv.1.imp Nat.ne_of_lt, htail⟩

/-- Claim C8: string registration is not idempotent by text equality:
registering the same text twice — back to back or with any other
registrations in between — returns two distinct ids; every call hands
out a fresh id. -/
theorem register_no_dedup (t : StringTable) (txt : String) (ops : List RegOp) :
    (registerString t txt).1
      ≠ (registerString (applyOps (registerString t txt).2 ops) txt).1 := by
  have h := applyOps_nextId_le ops (registerString t txt).2
  simp only [registerString] at h ⊢
  omega

theorem batch_writeback :
    ∀ (arr : List MR_Threadscope_String) (t : StringTable) (n : Nat),
      n ≤ arr.length →
      ((MR_threadscope_register_strings_array t arr n).2.map
          MR_Threadscope_String.MR_tsstring_string
        = arr.map MR_Threadscope_String.MR_tsstring_string)
      ∧ (∀ i, i < n →
          ((MR_threadscope_register_strings_array t arr n).2.get? i).map
              MR_Threadscope_String.MR_tsstring_id
            = some (t.nextId + i))
      ∧ (MR_threadscope_register_strings_array t arr n).1.nextId
          = t.nextId + n := by
  intro arr
  induction arr with
  | nil =>
    intro t n hn
    simp only [List.length_nil, Nat.le_zero] at hn
    subst hn
    exact ⟨rfl, fun i hi => absurd hi (by omega),
      by simp [MR_threadscope_register_strings_array]⟩
  | cons s rest ih =>
    intro t n hn
    cases n with
    | zero =>
      exact ⟨rfl, fun i hi => absurd hi (by omega),
        by simp [MR_threadscope_register_strings_array]⟩
    | succ m =>
      simp only [List.length_cons] at hn
      obtain ⟨h1, h2, h3⟩ :=
        ih (registerString t s.MR_tsstring_string).2 m (by omega)
      have hnx : (registerString t s.MR_tsstring_string).2.nextId = t.nextId + 1 :=
        rfl
      simp only [MR_threadscope_register_strings_array]
      refine ⟨by simp [h1], ?_, ?_⟩
      · intro i hi
        cases i with
        | zero => simp [registerString]
        | succ j =>
          have hj : j < m := by omega
          have hid := h2 j hj
          rw [hnx] at hid
          simp only [List.get?]
          rw [hid]
          simp only [Option.some.injEq]
          omega
      · rw [h3, hnx]
        omega

/-- Claim C10: batch registration of the first `size` entries of a
caller's `MR_Threadscope_String` array writes the newly assigned id into
each registered entry's `MR_tsstring_id` field (ids `nextId`,
`nextId+1`, ... in array order, as handed out by the table, whose
counter advances by `size`), while every `MR_tsstring_string` text field
of the array is left unchanged. -/
theorem register_strings_array_writeback (t : StringTable)
    (arr : List MR_Threadscope_String) (n i : Nat)
    (hn : n ≤ arr.length) (hi : i < n) :
    ((MR_threadscope_register_strings_array t arr n).2.map
        MR_Threadscope_String.MR_tsstring_string
      = arr.map MR_Threadscope_String.MR_tsstring_string)
    ∧ ((MR_threadscope_register_strings_array t arr n).2.get? i).map
          MR_Threadscope_String.MR_tsstring_id
        = some (t.nextId + i)
    ∧ (MR_threadscope_register_strings_array t arr n).1.nextId
        = t.nextId + n := by
  obtain ⟨h1, h2, h3⟩ := batch_writeback arr t n hn
  exact ⟨h1, h2 i hi, h3⟩

/-- Claim C10 witness: registering the two-string array of the spec's
concrete scenario writes back ids 0 and 1 and keeps the texts. -/
theorem register_strings_array_writeback_witness :
    (2 ≤ ([⟨"par_conj_A", 0⟩, ⟨"par_conj_B", 0⟩] :
        List MR_Threadscope_String).length)
    ∧ (1 < 2)
    ∧ (((MR_threadscope_register_strings_array initTable
          [⟨"par_conj_A", 0⟩, ⟨"par_conj_B", 0⟩] 2).2.map
            MR_Threadscope_String.MR_tsstring_string
          = ([⟨"par_conj_A", 0⟩, ⟨"par_conj_B", 0⟩] :
              List MR_Threadscope_String).map
              MR_Threadscope_String.MR_tsstring_string)
       ∧ ((MR_threadscope_register_strings_array initTable
            [⟨"par_conj_A", 0⟩, ⟨"par_conj_B", 0⟩] 2).2.get? 1).map
              MR_Threadscope_String.MR_tsstring_id
            = some (initTable.nextId + 1)
       ∧ (MR_threadscope_register_strings_array initTable
            [⟨"par_conj_A", 0⟩, ⟨"par_conj_B", 0⟩] 2).1.nextId
            = initTable.nextId + 2) :=
  ⟨by decide, by decide,
    register_strings_array_writeback initTable
      [⟨"par_conj_A", 0⟩, ⟨"par_conj_B", 0⟩] 2 1 (by decide) (by decide)⟩

/-! ## TraceSession lifecycle

Modelled from the spec (section 4.4): the process-wide state machine.
`MR_finalize_threadscope` (declared in the header, line 58) writes the
Footer block and moves the session to the finalized state; called on an
already-finalized session it is a no-op, not an error. -/

inductive SessionPhase where
  | preInit
  | ready
  | enginesActive
  | finalized
deriving DecidableEq

structure TraceSession where
  phase : SessionPhase
  out : List Block
  strings : StringTable
deriving DecidableEq

/-- The Footer block: terminal marker with the block count. -/
def footerBlock (s : TraceSession) : Block :=
  ⟨0, encodeLE 4 s.out.length⟩

def MR_finalize_threadscope (s : TraceSession) : TraceSession :=
  match s.phase with
  | .finalized => s
  | _ => { s with phase := .finalized, out := s.out ++ [footerBlock s] }

theorem finalize_noop (s : TraceSession)
    (h : s.phase = SessionPhase.finalized) : MR_finalize_threadscope s = s := by
  obtain ⟨ph, o, st⟩ := s
  simp only at h
  subst h
  rfl

theorem finalize_phase (s : TraceSession) :
    (MR_finalize_threadscope s).phase = SessionPhase.finalized := by
  obtain ⟨ph, o, st⟩ := s
  cases ph <;> rfl

/-- Claim C7: calling global finalize on a session already in the
finalized state is a no-op, not an error — the session state and the
already-written output are returned unchanged — and hence on any
session a repeated finalize after the first changes nothing. -/
theorem finalize_idempotent (s s2 : TraceSession)
    (h : s.phase = SessionPhase.finalized) :
    MR_finalize_threadscope s = s
    ∧ (MR_finalize_threadscope s).out = s.out
    ∧ MR_finalize_threadscope (MR_finalize_threadscope s2)
        = MR_finalize_threadscope s2 :=
  ⟨finalize_noop s h, by rw [finalize_noop s h],
    finalize_noop _ (finalize_phase s2)⟩

/-- Claim C7 witness: a concrete finalized session is left untouched,
and a double finalize from a live session equals a single one. -/
theorem finalize_idempotent_witness :
    ((⟨SessionPhase.finalized, [⟨0, [1]⟩], initTable⟩ : TraceSession).phase
        = SessionPhase.finalized)
    ∧ (MR_finalize_threadscope ⟨SessionPhase.finalized, [⟨0, [1]⟩], initTable⟩
         = ⟨SessionPhase.finalized, [⟨0, [1]⟩], initTable⟩
       ∧ (MR_finalize_threadscope
            ⟨SessionPhase.finalized, [⟨0, [1]⟩], initTable⟩).out = [⟨0, [1]⟩]
       ∧ MR_finalize_threadscope
            (MR_finalize_threadscope ⟨SessionPhase.ready, [], initTable⟩)
           = MR_finalize_threadscope ⟨SessionPhase.ready, [], initTable⟩) :=
  ⟨rfl, finalize_idempotent ⟨SessionPhase.finalized, [⟨0, [1]⟩], initTable⟩
    ⟨SessionPhase.ready, [], initTable⟩ rfl⟩
